import Mathlib

/-!
Verification of the `aira` TIFF reading library against its specification.

The definitions below are shallow embeddings of the Rust sources in
`crates/aira-tiff/src`.  Machine integers are modelled as `Nat` (with an
explicit `% 256` where `u8::wrapping_add` occurs) or as `Int` for the signed
rational arithmetic; byte sources are modelled as `List Nat` whose elements
are byte values.  Fallible operations return `Option` or `Except Unit`;
loops whose termination is not structural carry an explicit fuel argument,
with `none` meaning that the loop has not finished within the given number
of iterations.
-/

namespace Aira

/-! ## PackBits (compression/packbits.rs)

The decoder state machine `ReaderState` and one call of
`<PackBitsReader as Read>::read`.  The inner byte source is a `List Nat`
with the greedy `Read` semantics of a slice: `read_i8`/`read_u8` take the
head or fail with `UnexpectedEof`, and `read` into a buffer of length `k`
yields `min k src.length` bytes.  One call of `read` on a caller buffer of
length `bufLen` is modelled by `pbRead`: `out` is the prefix of the caller
buffer written so far (its length is the variable `start` of the source),
the result carries the produced bytes, the final state and the remaining
source.  `Except.error ()` is an I/O error propagated to the caller and
`none` means the loop did not terminate within `fuel` iterations. -/

/-- The decoder state of `PackBitsReader` (`ReaderState` in packbits.rs).
Counts are byte values held in a `u8`. -/
inductive ReaderState
  | start
  | repeatRun (count data : Nat)
  | literalRun (count : Nat)
  deriving DecidableEq

/-- One call of `PackBitsReader::read`, byte values of the control byte `b`
interpreted as the signed `i8` of the source (`128` is `-128`, `129..255`
are `-127..-1`, so the repeat count `1 + (-n)` is `257 - b`). -/
def pbRead : Nat → ReaderState → List Nat → Nat → List Nat →
    Option (Except Unit (List Nat × ReaderState × List Nat))
  | 0, _, _, _, _ => none
  | fuel + 1, ReaderState.start, src, bufLen, out =>
    match src with
    | [] => some (Except.ok (out, ReaderState.start, []))
    | b :: rest =>
      if b = 128 then
        if bufLen ≤ out.length then some (Except.ok (out, ReaderState.start, rest))
        else pbRead fuel ReaderState.start rest bufLen out
      else if 129 ≤ b then
        match rest with
        | [] => some (Except.error ())
        | d :: rest2 =>
          if bufLen ≤ out.length then
            some (Except.ok (out, ReaderState.repeatRun (257 - b) d, rest2))
          else pbRead fuel (ReaderState.repeatRun (257 - b) d) rest2 bufLen out
      else
        if bufLen ≤ out.length then some (Except.ok (out, ReaderState.literalRun (b + 1), rest))
        else pbRead fuel (ReaderState.literalRun (b + 1)) rest bufLen out
  | fuel + 1, ReaderState.repeatRun count data, src, bufLen, out =>
    let filled := min count (bufLen - out.length)
    let out2 := out ++ List.replicate filled data
    let st := if count - filled = 0 then ReaderState.start
              else ReaderState.repeatRun (count - filled) data
    if bufLen ≤ out2.length then some (Except.ok (out2, st, src))
    else pbRead fuel st src bufLen out2
  | fuel + 1, ReaderState.literalRun count, src, bufLen, out =>
    let want := min count (bufLen - out.length)
    let copied := min want src.length
    let out2 := out ++ src.take copied
    let src2 := src.drop copied
    let st := if count - copied = 0 then ReaderState.start
              else ReaderState.literalRun (count - copied)
    if bufLen ≤ out2.length then some (Except.ok (out2, st, src2))
    else pbRead fuel st src2 bufLen out2

/-! ## Floating-point predictor (predictor/floating.rs)

`FloatPredictorReader::decode_row` works on one row, a `List Nat` of byte
values.  The first stage is the double loop
`for col in 1..(row.len() / samples) { for sample in 0..samples { ... } }`
over a scratch buffer whose first `samples` bytes are copied from the row;
the second stage moves the accumulated bytes back into the row, reordering
from big-endian byte planes to native order (the little-endian branch of
the `cfg_if`).  For the rows the reader produces, `row.len() = ncols *
samples * bytespersample`, so every buffer position is written by the first
stage and every row position by the second. -/

/-- Byte addition `u8::wrapping_add`. -/
def wadd8 (a b : Nat) : Nat := (a + b) % 256

/-- The scratch buffer after `buffer[..samples].copy_from_slice(&row[..samples])`;
the rest of the freshly allocated buffer is zero. -/
def stage1Init (samples : Nat) (row : List Nat) : List Nat :=
  row.take samples ++ List.replicate (row.length - samples) 0

/-- One assignment of the inner loop of the first stage:
`buffer[col * samples + sample] =
   row[col * samples + sample].wrapping_add(buffer[(col - 1) * samples + sample])`. -/
def stage1Write (row : List Nat) (samples col sample : Nat) (buf : List Nat) : List Nat :=
  buf.set (col * samples + sample)
    (wadd8 (row.getD (col * samples + sample) 0)
      (buf.getD ((col - 1) * samples + sample) 0))

/-- The inner loop `for sample in 0..samples`. -/
def stage1Col (row : List Nat) (samples col : Nat) (buf : List Nat) : List Nat :=
  (List.range samples).foldl (fun b s => stage1Write row samples col s b) buf

/-- The first stage of `FloatPredictorReader::decode_row`: the outer loop
`for col in 1..(row.len() / samples)` applied to the initialised buffer. -/
def floatStage1 (samples : Nat) (row : List Nat) : List Nat :=
  (List.range' 1 (row.length / samples - 1)).foldl
    (fun b col => stage1Col row samples col b) (stage1Init samples row)

/-- The per-channel recurrence computed by the first stage: `buf[i] = row[i]`
for `i < samples`, and `buf[i] = row[i] wrapping_add buf[i - samples]`
for the remaining positions. -/
def stage1Rec (samples : Nat) (row : List Nat) (i : Nat) : Nat :=
  if h : samples = 0 ∨ i < samples then row.getD i 0
  else wadd8 (row.getD i 0) (stage1Rec samples row (i - samples))
termination_by i
decreasing_by
  push_neg at h
  omega

/-- Flat byte-stream accumulation as stated by the specification:
`buf[0] = row[0]`, `buf[i] = row[i] wrapping_add buf[i-1]`.  (Comparison
definition; the source accumulates per sample channel instead.) -/
def flatAccumAux (prev : Nat) : List Nat → List Nat
  | [] => []
  | x :: xs => wadd8 x prev :: flatAccumAux (wadd8 x prev) xs

/-- Flat byte-stream accumulation of a whole row (comparison definition). -/
def flatAccum : List Nat → List Nat
  | [] => []
  | x :: xs => x :: flatAccumAux x xs

/-- The second stage of `FloatPredictorReader::decode_row` on little-endian
targets: `row[col * bps + byte] = buffer[(bps - byte - 1) * cols + col]`
for `col < cols = row.len() / bps` and `byte < bps`; positions not of this
form keep their previous contents (none exist when `bps` divides the row
length). -/
def floatStage2LE (bps : Nat) (row buf : List Nat) : List Nat :=
  (List.range row.length).map fun i =>
    if i < row.length / bps * bps then
      buf.getD ((bps - i % bps - 1) * (row.length / bps) + i / bps) 0
    else row.getD i 0

/-- `FloatPredictorReader::decode_row` (little-endian target). -/
def decodeRow (samples bps : Nat) (row : List Nat) : List Nat :=
  floatStage2LE bps row (floatStage1 samples row)

/-! ## Rational numbers (ratio.rs)

`Ratio<T>` is a `{num, den}` pair compared by its `Ord::cmp`
implementation.  `i32` values are modelled as `Int` (the inputs evaluated
in the theorems stay far from the `i32` boundaries, so two's-complement
wrapping never occurs); `u32` values are modelled as `Nat`.  The recursion
of `cmp` descends along the continued-fraction expansion of the two values,
with strictly decreasing denominator magnitudes; the fuel argument bounds
it, and `ratioCmp` supplies fuel that is sufficient for every comparison
performed below. -/

/-- `div_mod_floor` for `i32` (the sealed `Integer` impl in ratio.rs):
truncated quotient and remainder corrected to floored division. -/
def divModFloor (a b : Int) : Int × Int :=
  let quot := Int.tdiv a b
  let rem := Int.tmod a b
  if (0 < rem ∧ b < 0) ∨ (rem < 0 ∧ 0 < b) then (quot - 1, rem + b) else (quot, rem)

/-- `<Ratio<i32> as Ord>::cmp` with explicit fuel. -/
def ratioCmpF : Nat → Int × Int → Int × Int → Ordering
  | 0, _, _ => Ordering.eq
  | fuel + 1, (a, b), (c, d) =>
    if b = d then
      (if b < 0 then (compare a c).swap else compare a c)
    else if a = c then
      (if a = 0 then Ordering.eq
       else if a < 0 then compare b d else (compare b d).swap)
    else
      let s := divModFloor a b
      let o := divModFloor c d
      if compare s.1 o.1 ≠ Ordering.eq then compare s.1 o.1
      else if s.2 = 0 ∧ o.2 = 0 then Ordering.eq
      else if s.2 = 0 then Ordering.lt
      else if o.2 = 0 then Ordering.gt
      else (ratioCmpF fuel (b, s.2) (d, o.2)).swap

/-- `<Ratio<i32> as Ord>::cmp` with fuel sufficient for every terminating
comparison. -/
def ratioCmp (x y : Int × Int) : Ordering :=
  ratioCmpF (x.2.natAbs + y.2.natAbs + 1) x y

/-- `<Ratio<u32> as Ord>::cmp`: the same algorithm over `Nat`, where
`den < T::zero()` and `num < T::zero()` are always false and
`div_mod_floor` is plain euclidean division. -/
def ratioCmpNF : Nat → Nat × Nat → Nat × Nat → Ordering
  | 0, _, _ => Ordering.eq
  | fuel + 1, (a, b), (c, d) =>
    if b = d then compare a c
    else if a = c then
      (if a = 0 then Ordering.eq else (compare b d).swap)
    else
      if compare (a / b) (c / d) ≠ Ordering.eq then compare (a / b) (c / d)
      else if a % b = 0 ∧ c % d = 0 then Ordering.eq
      else if a % b = 0 then Ordering.lt
      else if c % d = 0 then Ordering.gt
      else (ratioCmpNF fuel (b, a % b) (d, c % d)).swap

/-- The comparison stated by the claim: the ordering of `a*d` versus `c*b`,
reversed when exactly one of the two denominators is negative. -/
def crossCmp (x y : Int × Int) : Ordering :=
  if (x.2 < 0) ≠ (y.2 < 0) then (compare (x.1 * y.2) (y.1 * x.2)).swap
  else compare (x.1 * y.2) (y.1 * x.2)

/-! ## Structural decoder (decoder.rs, endian.rs, version.rs, dtype.rs)

Byte streams are `List Nat` of byte values.  The code always seeks to an
absolute position before reading, so an `EndianReader` read is modelled by
`readWord`: a `read_exact` of `n` bytes at position `pos`, assembled into
a word in the reader's byte order; `none` is an I/O error (unexpected end
of stream). -/

/-- `ByteOrder` (endian.rs). -/
inductive ByteOrder
  | bigEndian
  | littleEndian
  deriving DecidableEq

/-- `Version` (version.rs). -/
inductive Version
  | classic
  | bigTiff
  deriving DecidableEq

/-- `ByteOrder::try_from_signature`: `"MM"` (0x4d 0x4d) is big-endian,
`"II"` (0x49 0x49) little-endian, anything else an error. -/
def tryFromSignature (b0 b1 : Nat) : Option ByteOrder :=
  if b0 = 77 ∧ b1 = 77 then some ByteOrder.bigEndian
  else if b0 = 73 ∧ b1 = 73 then some ByteOrder.littleEndian
  else none

/-- `Version::try_from_u16`: 42 is Classic, 43 is BigTiff. -/
def versionFromU16 (v : Nat) : Option Version :=
  if v = 42 then some Version.classic
  else if v = 43 then some Version.bigTiff
  else none

/-- Assembles a word from its bytes in the given byte order. -/
def wordVal (bo : ByteOrder) (bs : List Nat) : Nat :=
  match bo with
  | ByteOrder.bigEndian => bs.foldl (fun acc x => 256 * acc + x) 0
  | ByteOrder.littleEndian => bs.foldr (fun x acc => 256 * acc + x) 0

/-- `read_exact` of `n` bytes at absolute position `pos` followed by word
assembly; `none` is an I/O error. -/
def readWord (bo : ByteOrder) (s : List Nat) (pos n : Nat) : Option Nat :=
  if pos + n ≤ s.length then some (wordVal bo ((s.drop pos).take n)) else none

/-- `Decoder::new`: two signature bytes, a version word in the detected
byte order, and for BigTIFF the two 16-bit disambiguators `offset_size`
and `reserved`, which must be 8 and 0.  `none` covers both validation and
I/O errors; the theorem characterises success. -/
def decoderNew (s : List Nat) : Option (ByteOrder × Version) :=
  match s with
  | b0 :: b1 :: rest =>
    match tryFromSignature b0 b1 with
    | none => none
    | some bo =>
      match rest with
      | v0 :: v1 :: rest2 =>
        match versionFromU16 (wordVal bo [v0, v1]) with
        | none => none
        | some Version.classic => some (bo, Version.classic)
        | some Version.bigTiff =>
          match rest2 with
          | o0 :: o1 :: p0 :: p1 :: _ =>
            if wordVal bo [o0, o1] = 8 ∧ wordVal bo [p0, p1] = 0 then
              some (bo, Version.bigTiff)
            else none
          | _ => none
      | _ => none
  | _ => none

/-- The header shape stated by the specification: signature `"II"` or
`"MM"`, a version word equal to 42 or 43 read in that byte order, and when
it is 43 two further 16-bit words equal to 8 and 0. -/
def headerValid (s : List Nat) : Bool :=
  match s with
  | b0 :: b1 :: v0 :: v1 :: rest =>
    if (b0 = 73 ∧ b1 = 73) ∨ (b0 = 77 ∧ b1 = 77) then
      let w := if b0 = 77 then 256 * v0 + v1 else 256 * v1 + v0
      if w = 42 then true
      else if w = 43 then
        match rest with
        | o0 :: o1 :: p0 :: p1 :: _ =>
          ((if b0 = 77 then 256 * o0 + o1 else 256 * o1 + o0) == 8) &&
            ((if b0 = 77 then 256 * p0 + p1 else 256 * p1 + p0) == 0)
        | _ => false
      else false
    else false
  | _ => false

/-- Width of an offset word (`u32` for Classic, `u64` for BigTIFF); it is
also the width of the per-entry `count` field. -/
def offsetWidth : Version → Nat
  | Version.classic => 4
  | Version.bigTiff => 8

/-- Width of the directory entry-count field. -/
def countWidth : Version → Nat
  | Version.classic => 2
  | Version.bigTiff => 8

/-- Size of one directory entry (`entry_size` in decoder.rs). -/
def entrySize : Version → Nat
  | Version.classic => 12
  | Version.bigTiff => 20

/-- Inline-value budget of one entry (`max_data_size` in `next_entry`). -/
def inlineBudget : Version → Nat
  | Version.classic => 4
  | Version.bigTiff => 8

/-- A directory handle as yielded by `Directories::next_directory`. -/
structure DirectoryModel where
  offset : Nat
  nextOffset : Nat
  entriesCount : Nat
  deriving DecidableEq

/-- `Directories::next_directory`.  The iterator state is the optional
position of the next offset word (`next_offset_loc`); the call returns the
yielded directory (or `none` for clean termination) together with the new
state. -/
def nextDirectory (ver : Version) (bo : ByteOrder) (s : List Nat) (loc : Option Nat) :
    Except Unit (Option DirectoryModel × Option Nat) :=
  match loc with
  | none => Except.ok (none, none)
  | some nol =>
    match readWord bo s nol (offsetWidth ver) with
    | none => Except.error ()
    | some offset =>
      if offset = 0 then Except.ok (none, none)
      else
        match readWord bo s offset (countWidth ver) with
        | none => Except.error ()
        | some entriesCount =>
          let nol2 := entriesCount * entrySize ver + (offset + countWidth ver)
          match readWord bo s nol2 (offsetWidth ver) with
          | none => Except.error ()
          | some nextOffset =>
            Except.ok (some ⟨offset, nextOffset, entriesCount⟩, some nol2)

/-- The 16 standard TIFF datatypes (dtype.rs). -/
inductive DType
  | byte
  | ascii
  | short
  | long
  | rational
  | signedByte
  | undefined
  | signedShort
  | signedLong
  | signedRational
  | float
  | double
  | ifd
  | bigLong
  | bigSignedLong
  | bigIfd
  deriving DecidableEq

/-- `DType::size`. -/
def DType.size : DType → Nat
  | DType.byte | DType.ascii | DType.signedByte | DType.undefined => 1
  | DType.short | DType.signedShort => 2
  | DType.long | DType.signedLong | DType.float | DType.ifd => 4
  | DType.rational | DType.signedRational | DType.double
  | DType.bigLong | DType.bigSignedLong | DType.bigIfd => 8

/-- `DType::try_from_u16`. -/
def dtypeFromU16 : Nat → Option DType
  | 1 => some DType.byte
  | 2 => some DType.ascii
  | 3 => some DType.short
  | 4 => some DType.long
  | 5 => some DType.rational
  | 6 => some DType.signedByte
  | 7 => some DType.undefined
  | 8 => some DType.signedShort
  | 9 => some DType.signedLong
  | 10 => some DType.signedRational
  | 11 => some DType.float
  | 12 => some DType.double
  | 13 => some DType.ifd
  | 16 => some DType.bigLong
  | 17 => some DType.bigSignedLong
  | 18 => some DType.bigIfd
  | _ => none

/-- An entry as yielded by `Entries::next_entry`. -/
structure EntryModel where
  tag : Nat
  dtype : DType
  count : Nat
  offset : Nat
  deriving DecidableEq

/-- `Entries::next_entry`.  The iterator state is the pair
`(entries_count, entry_offset)`; the call yields the decoded entry and the
updated state, `Except.ok none` when the directory is exhausted. -/
def nextEntry (ver : Version) (bo : ByteOrder) (s : List Nat)
    (entriesCount entryOffset : Nat) :
    Except Unit (Option (EntryModel × Nat × Nat)) :=
  if entriesCount = 0 then Except.ok none
  else
    match readWord bo s entryOffset 2 with
    | none => Except.error ()
    | some tagv =>
      match readWord bo s (entryOffset + 2) 2 with
      | none => Except.error ()
      | some dtv =>
        match dtypeFromU16 dtv with
        | none => Except.error ()
        | some dt =>
          match readWord bo s (entryOffset + 4) (offsetWidth ver) with
          | none => Except.error ()
          | some count =>
            if DType.size dt * count ≤ inlineBudget ver then
              Except.ok (some (⟨tagv, dt, count, entryOffset + 4 + offsetWidth ver⟩,
                entriesCount - 1, entryOffset + entrySize ver))
            else
              match readWord bo s (entryOffset + 4 + offsetWidth ver) (offsetWidth ver) with
              | none => Except.error ()
              | some off =>
                Except.ok (some (⟨tagv, dt, count, off⟩,
                  entriesCount - 1, entryOffset + entrySize ver))

/-! ## Metadata builder (metadata.rs)

Only the builder fields taking part in the validation performed by
`MetadataBuilder::build` are modelled.  The pass-through fields
(compression, predictor, subfile type, planar configuration, resolution
unit, the text fields and the custom-entry map) receive defaults or are
stored unchanged and cannot make `build` fail; the date-time field is the
raw string of the base build (the optional `chrono`/`jiff` parsing is a
feature and is not modelled).  Chunk offsets and byte counts are `u64`
values held as `Nat`; a sample format is its `u16` code. -/

/-- `Layout` (metadata.rs). -/
inductive Layout
  | strips (length : Nat)
  | tiles (width length : Nat)
  deriving DecidableEq

/-- `u32::div_ceil` (the arguments stay within `u32`, so `(a + b - 1) / b`
has the same value). -/
def divCeil (a b : Nat) : Nat := (a + b - 1) / b

/-- `Layout::expected_chunks_count`. -/
def Layout.expectedChunksCount : Layout → Nat → Nat → Nat
  | Layout.strips len, _, imageLength => divCeil imageLength len
  | Layout.tiles w len, imageWidth, imageLength =>
      divCeil imageLength len * divCeil imageWidth w

/-- The validated `Metadata` record, restricted to the fields the claims
are about.  `chunks` is the table of `(offset, byte_count)` pairs and
`samples` the list of `(bits, format)` pairs. -/
structure Metadata where
  dimensions : Nat × Nat
  interpretation : Nat
  layout : Layout
  chunks : List (Nat × Nat)
  samples : List (Nat × Nat)
  resolution : Option ((Nat × Nat) × (Nat × Nat))
  deriving DecidableEq

/-- The `MetadataBuilder` state after all entries have been pushed. -/
structure MetadataBuilder where
  image_width : Option Nat
  image_length : Option Nat
  interpretation : Option Nat
  rows_per_strip : Option Nat
  strip_offsets : Option (List Nat)
  strip_byte_counts : Option (List Nat)
  tile_width : Option Nat
  tile_length : Option Nat
  tile_offsets : Option (List Nat)
  tile_byte_counts : Option (List Nat)
  samples_per_pixel : Option Nat
  bits_per_sample : Option (List Nat)
  sample_format : Option (List Nat)
  xresolution : Option (Nat × Nat)
  yresolution : Option (Nat × Nat)
  deriving DecidableEq

/-- The tail of `MetadataBuilder::build` once the layout is resolved: the
chunk-table, sample and resolution validation, and the assembly of the
record. -/
def buildTail (b : MetadataBuilder) (w h interp : Nat) (layout : Layout)
    (offsets byteCounts : List Nat) : Option Metadata :=
  if offsets.length ≠ byteCounts.length then none
  else if offsets.length < layout.expectedChunksCount w h then none
  else
    let spp := b.samples_per_pixel.getD 1
    let bits := b.bits_per_sample.getD (List.replicate spp 1)
    let fmts := b.sample_format.getD (List.replicate spp 1)
    if bits.length ≠ spp then none
    else if fmts.length ≠ spp then none
    else
      match b.xresolution, b.yresolution with
      | some xr, some yr =>
          some ⟨(w, h), interp, layout, offsets.zip byteCounts, bits.zip fmts,
            some (xr, yr)⟩
      | none, none =>
          some ⟨(w, h), interp, layout, offsets.zip byteCounts, bits.zip fmts, none⟩
      | _, _ => none

/-- `MetadataBuilder::build`. -/
def build (b : MetadataBuilder) : Option Metadata :=
  match b.image_width with
  | none => none
  | some w =>
    if w = 0 then none
    else
      match b.image_length with
      | none => none
      | some h =>
        if h = 0 then none
        else
          match b.interpretation with
          | none => none
          | some interp =>
            match b.rows_per_strip, b.strip_offsets, b.strip_byte_counts,
                b.tile_width, b.tile_length, b.tile_offsets, b.tile_byte_counts with
            | some len, some offsets, some byteCounts, none, none, none, none =>
              if len = 0 then none
              else buildTail b w h interp (Layout.strips len) offsets byteCounts
            | none, none, none, some tw, some tl, some offsets, some byteCounts =>
              if tw = 0 then none
              else if tl = 0 then none
              else buildTail b w h interp (Layout.tiles tw tl) offsets byteCounts
            | _, _, _, _, _, _, _ => none

/-- The seven layout tags are fully strip-shaped. -/
def stripShaped (b : MetadataBuilder) : Bool :=
  b.rows_per_strip.isSome && b.strip_offsets.isSome && b.strip_byte_counts.isSome &&
    b.tile_width.isNone && b.tile_length.isNone && b.tile_offsets.isNone &&
    b.tile_byte_counts.isNone

/-- The seven layout tags are fully tile-shaped. -/
def tileShaped (b : MetadataBuilder) : Bool :=
  b.rows_per_strip.isNone && b.strip_offsets.isNone && b.strip_byte_counts.isNone &&
    b.tile_width.isSome && b.tile_length.isSome && b.tile_offsets.isSome &&
    b.tile_byte_counts.isSome

/-- The offsets table of the resolved layout. -/
def specOffsets (b : MetadataBuilder) : List Nat :=
  if stripShaped b then b.strip_offsets.getD [] else b.tile_offsets.getD []

/-- The byte-counts table of the resolved layout. -/
def specByteCounts (b : MetadataBuilder) : List Nat :=
  if stripShaped b then b.strip_byte_counts.getD [] else b.tile_byte_counts.getD []

/-- No chunk measure of the resolved layout is zero. -/
def specChunkMeasuresPos (b : MetadataBuilder) : Bool :=
  if stripShaped b then b.rows_per_strip.getD 0 != 0
  else (b.tile_width.getD 0 != 0) && (b.tile_length.getD 0 != 0)

/-- `expected_chunks_count` of the resolved layout. -/
def specExpected (b : MetadataBuilder) : Nat :=
  if stripShaped b then divCeil (b.image_length.getD 0) (b.rows_per_strip.getD 0)
  else
    divCeil (b.image_length.getD 0) (b.tile_length.getD 0) *
      divCeil (b.image_width.getD 0) (b.tile_width.getD 0)

/-- Success of `build` as the claim enumerates it: the required tags are
present, the layout tags are fully strip- or tile-shaped, no dimension or
chunk measure is zero, the chunk tables have equal length and at least
`expected_chunks_count` entries, the per-sample lists (after defaulting)
match `samples_per_pixel`, and the two resolution tags are both present or
both absent. -/
def buildSpecOk (b : MetadataBuilder) : Bool :=
  b.image_width.isSome && b.image_length.isSome && b.interpretation.isSome &&
    (b.image_width.getD 0 != 0) && (b.image_length.getD 0 != 0) &&
    (stripShaped b || tileShaped b) && specChunkMeasuresPos b &&
    ((specOffsets b).length == (specByteCounts b).length) &&
    decide (specExpected b ≤ (specOffsets b).length) &&
    ((b.bits_per_sample.getD (List.replicate (b.samples_per_pixel.getD 1) 1)).length ==
      b.samples_per_pixel.getD 1) &&
    ((b.sample_format.getD (List.replicate (b.samples_per_pixel.getD 1) 1)).length ==
      b.samples_per_pixel.getD 1) &&
    (b.xresolution.isSome == b.yresolution.isSome)

/-- A chunk as yielded by `Metadata::chunks` (`Chunk` in metadata.rs). -/
structure Chunk where
  origin : Nat × Nat
  size : Nat × Nat
  offset : Nat
  byteCount : Nat
  deriving DecidableEq

/-- `Metadata::chunk_size`: strips span the full image width. -/
def Metadata.chunkSize (m : Metadata) : Nat × Nat :=
  match m.layout with
  | Layout.strips len => (m.dimensions.1, len)
  | Layout.tiles w len => (w, len)

/-- `u32` wrapping multiplication (release-profile semantics; a debug
build panics when the product overflows). -/
def wmul32 (a b : Nat) : Nat := a * b % 4294967296

/-- `u32` subtraction: exact when `b ≤ a`; otherwise the source
underflows — a debug build panics and a release build wraps, modelled by
the wrapped value. -/
def wsub32 (a b : Nat) : Nat :=
  if b ≤ a then a - b else (a + 4294967296 - b) % 4294967296

/-- `Chunks::build_nth_chunk`.  `index_width as u32 * chunk_width` and
`image_width - origin_x` are `u32` operations, modelled with the wrapping
`u32` arithmetic above; `index_length as u32` truncates, while the cast
of `index_width` is value-preserving because `index_width <
chunks_along_width` and `chunks_along_width` comes from a `u32`
`div_ceil`.  The safety theorem shows the subtractions stay exact for
every index below `expected_chunks_count`. -/
def buildNthChunk (imageSize chunkSize : Nat × Nat) (index : Nat) (loc : Nat × Nat) :
    Chunk :=
  let chunksAlongWidth := divCeil imageSize.1 chunkSize.1
  let indexWidth := index % chunksAlongWidth
  let indexLength := index / chunksAlongWidth
  let originX := wmul32 indexWidth chunkSize.1
  let originY := wmul32 (indexLength % 4294967296) chunkSize.2
  ⟨(originX, originY),
    (min chunkSize.1 (wsub32 imageSize.1 originX),
     min chunkSize.2 (wsub32 imageSize.2 originY)),
    loc.1, loc.2⟩

/-- `Metadata::chunks` materialised as a list: the iterator enumerates the
chunk table in storage order and applies `build_nth_chunk` to each indexed
entry. -/
def Metadata.chunksList (m : Metadata) : List Chunk :=
  m.chunks.enum.map fun p => buildNthChunk m.dimensions m.chunkSize p.1 p.2

/-! ## Theorems about PackBits -/

/-- Helper for the non-termination of a truncated `Literal` run: once the
source is empty and the state still demands two literal bytes, every loop
iteration reads zero bytes and leaves the state unchanged. -/
theorem pbRead_literalRun_two_empty (fuel : Nat) :
    pbRead fuel (ReaderState.literalRun 2) [] 3 [170] = none := by
  induction fuel with
  | zero => rfl
  | succ f ih => simpa [pbRead] using ih

/-- Helper: from `Literal{3}` with a single remaining source byte, one byte
is copied and the reader enters the non-terminating configuration. -/
theorem pbRead_literalRun_three (fuel : Nat) :
    pbRead fuel (ReaderState.literalRun 3) [170] 3 [] = none := by
  cases fuel with
  | zero => rfl
  | succ f => simpa [pbRead] using pbRead_literalRun_two_empty f

/-- C2: EOF of the source exactly at a `Start` control-byte boundary yields a
clean `Ok` with the bytes produced so far, and EOF while reading the data
byte of an announced `Repeat` run is an error; but EOF inside a `Literal`
run does NOT surface as an error: on the stream `[0x02, 0xAA]` (a literal
run of 3 with a single data byte) with a 3-byte caller buffer, `read` never
returns, whatever fuel it is given. -/
theorem packbits_eof_behaviour :
    (∀ fuel bufLen out, pbRead (fuel + 1) ReaderState.start [] bufLen out =
        some (Except.ok (out, ReaderState.start, [])))
  ∧ (∀ fuel bufLen out, pbRead (fuel + 1) ReaderState.start [254] bufLen out =
        some (Except.error ()))
  ∧ (∀ fuel, pbRead fuel ReaderState.start [2, 170] 3 [] = none) := by
  refine ⟨fun fuel bufLen out => rfl, fun fuel bufLen out => by simp [pbRead], fun fuel => ?_⟩
  cases fuel with
  | zero => rfl
  | succ f => simpa [pbRead] using pbRead_literalRun_three f

/-- C3: PackBits decoding per Apple TN 1023.  A control byte `n == -128`
(byte value 128) is a no-op; `-127 ≤ n ≤ -1` (byte value `b`, `129 ≤ b ≤
255`) reads one data byte and emits `1 - n = 257 - b` copies of it;
`0 ≤ n ≤ 127` copies the next `1 + n` bytes literally; and the Apple
reference input decodes to the 24-byte expansion. -/
theorem packbits_tn1023 :
    (∀ fuel src bufLen (out : List Nat), out.length < bufLen →
        pbRead (fuel + 1) ReaderState.start (128 :: src) bufLen out =
          pbRead fuel ReaderState.start src bufLen out)
  ∧ (∀ fuel b d src bufLen (out : List Nat), 129 ≤ b → b ≤ 255 →
        out.length + (257 - b) < bufLen →
        pbRead (fuel + 2) ReaderState.start (b :: d :: src) bufLen out =
          pbRead fuel ReaderState.start src bufLen (out ++ List.replicate (257 - b) d))
  ∧ (∀ fuel b (data rest : List Nat) bufLen (out : List Nat), b ≤ 127 →
        data.length = b + 1 → out.length + (b + 1) < bufLen →
        pbRead (fuel + 2) ReaderState.start (b :: (data ++ rest)) bufLen out =
          pbRead fuel ReaderState.start rest bufLen (out ++ data))
  ∧ pbRead 64 ReaderState.start
      [254, 170, 2, 128, 0, 42, 253, 170, 3, 128, 0, 42, 34, 247, 170] 24 [] =
      some (Except.ok
        ([170, 170, 170, 128, 0, 42, 170, 170, 170, 170, 128, 0, 42, 34,
          170, 170, 170, 170, 170, 170, 170, 170, 170, 170],
         ReaderState.start, [])) := by
  refine ⟨fun fuel src bufLen out h => ?_, fun fuel b d src bufLen out hb1 hb2 h => ?_,
    fun fuel b data rest bufLen out hb hd h => ?_, by rfl⟩
  · simp [pbRead, Nat.not_le.mpr h]
  · have hb128 : ¬ b = 128 := by omega
    have hlt : ¬ bufLen ≤ out.length := by omega
    have hmin : min (257 - b) (bufLen - out.length) = 257 - b := by omega
    have hfull : ¬ bufLen ≤ out.length + (257 - b) := by omega
    show pbRead (fuel + 1 + 1) _ _ _ _ = _
    simp [pbRead, hb128, hb1, hlt, hmin, hfull]
  · have hb128 : ¬ b = 128 := by omega
    have hb129 : ¬ 129 ≤ b := by omega
    have hlt : ¬ bufLen ≤ out.length := by omega
    have hmin : min (b + 1) (bufLen - out.length) = b + 1 := by omega
    have hlen : min (b + 1) (data.length + rest.length) = b + 1 := by omega
    have hfull : ¬ bufLen ≤ out.length + (b + 1) := by omega
    have hfull2 : ¬ bufLen ≤ out.length + data.length := by omega
    have htake : (data ++ rest).take (b + 1) = data := by
      rw [← hd, List.take_left]
    have hdrop : (data ++ rest).drop (b + 1) = rest := by
      rw [← hd, List.drop_left]
    show pbRead (fuel + 1 + 1) _ _ _ _ = _
    simp [pbRead, hb128, hb129, hlt, hmin, hlen, hfull, hfull2, htake, hdrop]

/-- Witness for `packbits_tn1023` at concrete inputs. -/
theorem packbits_tn1023_witness :
    (pbRead 1 ReaderState.start [128] 4 [] = pbRead 0 ReaderState.start [] 4 [])
  ∧ (pbRead 2 ReaderState.start [255, 7] 9 [] =
      pbRead 0 ReaderState.start [] 9 [7, 7])
  ∧ (pbRead 2 ReaderState.start [0, 9] 9 [] =
      pbRead 0 ReaderState.start [] 9 [9]) :=
  ⟨packbits_tn1023.1 0 [] 4 [] (by decide),
   by simpa using packbits_tn1023.2.1 0 255 7 [] 9 [] (by decide) (by decide) (by decide),
   by simpa using packbits_tn1023.2.2.1 0 0 [9] [] 9 [] (by decide) (by decide) (by decide)⟩

/-! ## Theorems about the floating-point predictor -/

/-- Writing inside the list and reading the written position. -/
theorem getD_set_self (l : List Nat) (i a d : Nat) (h : i < l.length) :
    (l.set i a).getD i d = a := by
  rw [List.getD_eq_getD_get?, List.get?_set_eq_of_lt _ h, Option.getD_some]

/-- Writing one position leaves every other position unchanged. -/
theorem getD_set_ne (l : List Nat) (i j a d : Nat) (h : i ≠ j) :
    (l.set i a).getD j d = l.getD j d := by
  rw [List.getD_eq_getD_get?, List.get?_set_ne _ _ h, ← List.getD_eq_getD_get?]

/-- The initialised scratch buffer has the length of the row. -/
theorem stage1Init_length (samples : Nat) (row : List Nat) (h : samples ≤ row.length) :
    (stage1Init samples row).length = row.length := by
  simp [stage1Init]
  omega

/-- The first `samples` bytes of the initialised buffer are those of the row. -/
theorem stage1Init_getD_lt (samples : Nat) (row : List Nat) (i : Nat) (hi : i < samples)
    (hs : samples ≤ row.length) :
    (stage1Init samples row).getD i 0 = row.getD i 0 := by
  rw [stage1Init, List.getD_append]
  · rw [List.getD_eq_getD_get?, List.getD_eq_getD_get?, List.get?_take hi]
  · simp
    omega

/-- Invariant of the inner loop of the first stage: after the writes for
`sample = 0, …, k-1` of column `c`, the buffer agrees with the per-channel
recurrence on every position below `c * samples + k`. -/
theorem stage1Col_partial (row : List Nat) (samples c : Nat) (buf : List Nat)
    (hlen : buf.length = row.length) (hc : 1 ≤ c)
    (hinv : ∀ i, i < c * samples → buf.getD i 0 = stage1Rec samples row i) :
    ∀ k, k ≤ samples → c * samples + k ≤ row.length →
      ((List.range k).foldl (fun b s => stage1Write row samples c s b) buf).length
          = row.length ∧
        ∀ i, i < c * samples + k →
          ((List.range k).foldl (fun b s => stage1Write row samples c s b) buf).getD i 0
            = stage1Rec samples row i := by
  intro k
  induction k with
  | zero => exact fun _ _ => ⟨hlen, fun i hi => hinv i (by simpa using hi)⟩
  | succ k ih =>
    intro hk hub
    obtain ⟨ihlen, ihval⟩ := ih (by omega) (by omega)
    rw [List.range_succ, List.foldl_append]
    set B := (List.range k).foldl (fun b s => stage1Write row samples c s b) buf with hB
    have hslt : 0 < samples := by omega
    have hjlt : c * samples + k < row.length := by omega
    have hmulsub : c * samples = (c - 1) * samples + samples := by
      cases c with
      | zero => omega
      | succ c0 =>
        simp only [Nat.add_sub_cancel]
        ring
    have hread : (c - 1) * samples + k < c * samples + k := by omega
    have hreadval : B.getD ((c - 1) * samples + k) 0 =
        stage1Rec samples row ((c - 1) * samples + k) := ihval _ hread
    constructor
    · simp [stage1Write, List.foldl_cons, ihlen]
    · intro i hi
      by_cases hij : i = c * samples + k
      · subst hij
        simp only [List.foldl_cons, List.foldl_nil, stage1Write]
        rw [getD_set_self _ _ _ _ (by rw [ihlen]; exact hjlt), hreadval]
        have hns : ¬ (samples = 0 ∨ c * samples + k < samples) := by omega
        have hidx : c * samples + k - samples = (c - 1) * samples + k := by omega
        conv_rhs => rw [stage1Rec]
        rw [dif_neg hns, hidx]
      · simp only [List.foldl_cons, List.foldl_nil, stage1Write]
        rw [getD_set_ne _ _ _ _ _ (fun hh => hij hh.symm)]
        exact ihval i (by omega)

/-- Invariant of the outer loop of the first stage: after processing columns
`1, …, t`, the buffer agrees with the per-channel recurrence below
`(t + 1) * samples`. -/
theorem floatStage1_partial (samples : Nat) (row : List Nat) (hs : 0 < samples)
    (hm : row.length = row.length / samples * samples) :
    ∀ t, t + 1 ≤ row.length / samples →
      ((List.range' 1 t).foldl (fun b col => stage1Col row samples col b)
          (stage1Init samples row)).length = row.length ∧
        ∀ i, i < (t + 1) * samples →
          ((List.range' 1 t).foldl (fun b col => stage1Col row samples col b)
            (stage1Init samples row)).getD i 0 = stage1Rec samples row i := by
  intro t
  induction t with
  | zero =>
    intro ht
    have hsle : samples ≤ row.length := by
      calc samples = 1 * samples := (Nat.one_mul _).symm
        _ ≤ row.length / samples * samples := Nat.mul_le_mul_right _ ht
        _ = row.length := hm.symm
    refine ⟨stage1Init_length samples row hsle, fun i hi => ?_⟩
    have hi2 : i < samples := by simpa using hi
    rw [List.range'_zero, List.foldl_nil, stage1Init_getD_lt samples row i hi2 hsle,
      stage1Rec]
    simp [hi2]
  | succ t ih =>
    intro ht
    obtain ⟨ihlen, ihval⟩ := ih (by omega)
    rw [List.range'_concat, List.foldl_append, List.foldl_cons, List.foldl_nil]
    simp only [Nat.one_mul, stage1Col]
    have hub2 : (1 + t) * samples + samples ≤ row.length := by
      calc (1 + t) * samples + samples = (1 + t + 1) * samples := by ring
        _ ≤ row.length / samples * samples := Nat.mul_le_mul_right _ (by omega)
        _ = row.length := hm.symm
    obtain ⟨hlen2, hval2⟩ := stage1Col_partial row samples (1 + t) _ ihlen (by omega)
      (fun i hi => ihval i (by rw [Nat.add_comm 1 t] at hi; exact hi))
      samples (le_refl _) hub2
    refine ⟨hlen2, fun i hi => hval2 i ?_⟩
    have heq : (t + 1 + 1) * samples = (1 + t) * samples + samples := by ring
    omega

/-- The first stage of `decode_row` computes exactly the per-channel
recurrence on every row position. -/
theorem floatStage1_spec (samples : Nat) (row : List Nat) (hs : 0 < samples)
    (hdvd : samples ∣ row.length) (hpos : 0 < row.length) :
    (floatStage1 samples row).length = row.length ∧
      ∀ i, i < row.length → (floatStage1 samples row).getD i 0 = stage1Rec samples row i := by
  have hm : row.length = row.length / samples * samples := (Nat.div_mul_cancel hdvd).symm
  have hmpos : 0 < row.length / samples := by
    rcases Nat.eq_zero_or_pos (row.length / samples) with h0 | h
    · rw [h0] at hm
      omega
    · exact h
  obtain ⟨hlen, hval⟩ := floatStage1_partial samples row hs hm (row.length / samples - 1)
    (by omega)
  have hfold : floatStage1 samples row =
      (List.range' 1 (row.length / samples - 1)).foldl
        (fun b col => stage1Col row samples col b) (stage1Init samples row) := rfl
  refine ⟨by rw [hfold]; exact hlen, fun i hi => ?_⟩
  rw [hfold]
  refine hval i ?_
  have : (row.length / samples - 1 + 1) * samples = row.length / samples * samples := by
    congr 1
    omega
  omega

/-- Reading the de-shuffled row at `c * bps + (bps - b - 1)` returns the
accumulated buffer at `b * cols + c`. -/
theorem floatStage2LE_getD (bps : Nat) (row buf : List Nat) (c b : Nat)
    (hbps : 0 < bps) (hb : b < bps) (hc : c < row.length / bps) :
    (floatStage2LE bps row buf).getD (c * bps + (bps - b - 1)) 0 =
      buf.getD (b * (row.length / bps) + c) 0 := by
  have hrb : bps - b - 1 < bps := by omega
  have hi1 : c * bps + (bps - b - 1) < row.length / bps * bps := by
    have h2 : c * bps + bps ≤ row.length / bps * bps := by
      calc c * bps + bps = (c + 1) * bps := by ring
        _ ≤ row.length / bps * bps := Nat.mul_le_mul_right _ (by omega)
    omega
  have hi2 : c * bps + (bps - b - 1) < row.length :=
    lt_of_lt_of_le hi1 (Nat.div_mul_le_self _ _)
  have hmod : (c * bps + (bps - b - 1)) % bps = bps - b - 1 := by
    rw [Nat.mul_comm c bps, Nat.mul_add_mod, Nat.mod_eq_of_lt hrb]
  have hdiv : (c * bps + (bps - b - 1)) / bps = c := by
    rw [Nat.mul_comm c bps, Nat.mul_add_div hbps, Nat.div_eq_of_lt hrb, Nat.add_zero]
  have hb2 : bps - (bps - b - 1) - 1 = b := by omega
  rw [floatStage2LE, List.getD_eq_getD_get?, List.get?_map, List.get?_range hi2]
  simp only [Option.map_some', Option.getD_some]
  rw [if_pos hi1, hmod, hdiv, hb2]

/-- C1 counterexample: with two samples per pixel the first stage is not the
flat byte-stream accumulation; on the row `[1, 2, 3, 4]` (one column, two
samples, two bytes per sample) the code produces `[1, 2, 4, 6]` while the
flat recurrence gives `[1, 3, 6, 10]`. -/
theorem floatStage1_not_flat :
    floatStage1 2 [1, 2, 3, 4] = [1, 2, 4, 6] ∧
      flatAccum [1, 2, 3, 4] = [1, 3, 6, 10] ∧
      floatStage1 2 [1, 2, 3, 4] ≠ flatAccum [1, 2, 3, 4] := by decide

/-- C1 (amended): the first stage accumulates per sample channel —
`buf[i] = row[i]` for `i < samples` and
`buf[i] = row[i] wrapping_add buf[i - samples]` for the rest of the row
(the flat recurrence of the claim is the special case `samples = 1`) — and
the second stage de-shuffles so that on little-endian targets
`row[c·bps + (bps - b - 1)] = buf[b·cols + c]` with `cols = row.len() / bps`. -/
theorem floatPredictor_decode_row (ncols samples bps : Nat) (row : List Nat)
    (hn : row.length = ncols * samples * bps)
    (hc : 0 < ncols) (hs : 0 < samples) (hb : 0 < bps) :
    (∀ i, i < samples → (floatStage1 samples row).getD i 0 = row.getD i 0)
    ∧ (∀ i, samples ≤ i → i < row.length →
        (floatStage1 samples row).getD i 0 =
          wadd8 (row.getD i 0) ((floatStage1 samples row).getD (i - samples) 0))
    ∧ (∀ c b, c < row.length / bps → b < bps →
        (decodeRow samples bps row).getD (c * bps + (bps - b - 1)) 0 =
          (floatStage1 samples row).getD (b * (row.length / bps) + c) 0) := by
  have hdvd : samples ∣ row.length := ⟨ncols * bps, by rw [hn]; ring⟩
  have hpos : 0 < row.length := by
    rw [hn]
    positivity
  obtain ⟨hlen, hval⟩ := floatStage1_spec samples row hs hdvd hpos
  have hsle : samples ≤ row.length := Nat.le_of_dvd hpos hdvd
  refine ⟨fun i hi => ?_, fun i hge hlt => ?_, fun c b hcc hbb => ?_⟩
  · rw [hval i (lt_of_lt_of_le hi hsle), stage1Rec]
    simp [hi]
  · rw [hval i hlt, stage1Rec]
    have hns : ¬ (samples = 0 ∨ i < samples) := by omega
    rw [dif_neg hns, hval (i - samples) (by omega)]
  · exact floatStage2LE_getD bps row (floatStage1 samples row) c b hb hbb hcc

/-- Witness for `floatPredictor_decode_row` on the concrete row
`[1, 2, 3, 4]` with one column, two samples and two bytes per sample. -/
theorem floatPredictor_decode_row_witness :
    (floatStage1 2 [1, 2, 3, 4]).getD 1 0 = List.getD [1, 2, 3, 4] 1 0
    ∧ (floatStage1 2 [1, 2, 3, 4]).getD 3 0 =
        wadd8 (List.getD [1, 2, 3, 4] 3 0) ((floatStage1 2 [1, 2, 3, 4]).getD 1 0)
    ∧ (decodeRow 2 2 [1, 2, 3, 4]).getD (1 * 2 + (2 - 0 - 1)) 0 =
        (floatStage1 2 [1, 2, 3, 4]).getD (0 * ([1, 2, 3, 4].length / 2) + 1) 0 :=
  ⟨(floatPredictor_decode_row 1 2 2 [1, 2, 3, 4] rfl (by decide) (by decide) (by decide)).1
      1 (by decide),
   (floatPredictor_decode_row 1 2 2 [1, 2, 3, 4] rfl (by decide) (by decide) (by decide)).2.1
      3 (by decide) (by decide),
   (floatPredictor_decode_row 1 2 2 [1, 2, 3, 4] rfl (by decide) (by decide) (by decide)).2.2
      1 0 (by decide) (by decide)⟩

/-! ## Theorems about `Ratio::cmp` -/

/-- C9: the claimed `Ratio(1,2) == Ratio(5,10)` and `Ratio(1,-2) ==
Ratio(-1,2)` hold, but `cmp` does not agree with the sign-adjusted
cross-multiplied comparison: on `1/2` versus `1 / (-3)` the
equal-numerator fast path reverses the denominator comparison without
accounting for the opposite signs and answers `Less`, while the
cross-multiplied comparison (and the value ordering `1/2 > -1/3`) is
`Greater`.  The same fast path makes `cmp` inconsistent with its own
equality: `1/2 == (-1) / (-2)`, yet `1/2 < 1 / (-3)` while
`(-1) / (-2) > 1 / (-3)`. -/
theorem ratio_cmp_sign_bug :
    ratioCmp (1, 2) (1, -3) = Ordering.lt
  ∧ crossCmp (1, 2) (1, -3) = Ordering.gt
  ∧ ratioCmp (1, 2) (-1, -2) = Ordering.eq
  ∧ ratioCmp (-1, -2) (1, -3) = Ordering.gt
  ∧ ratioCmp (1, -2) (-1, 2) = Ordering.eq
  ∧ ratioCmpNF 64 (1, 2) (5, 10) = Ordering.eq := by decide

/-! ## Theorems about the structural decoder -/

/-- C8: `Decoder::new` succeeds exactly on the streams that begin with a
complete valid header: signature `"II"` or `"MM"`, a version word of 42 or
43 read in that byte order, and for 43 the disambiguator words 8 and 0. -/
theorem decoder_new_header (s : List Nat) :
    (decoderNew s).isSome = headerValid s := by
  rcases s with _ | ⟨b0, _ | ⟨b1, _ | ⟨v0, _ | ⟨v1, rest⟩⟩⟩⟩
  · rfl
  · rfl
  · cases htry : tryFromSignature b0 b1 <;> simp [decoderNew, headerValid, htry]
  · cases htry : tryFromSignature b0 b1 <;> simp [decoderNew, headerValid, htry]
  · by_cases h77 : b0 = 77 ∧ b1 = 77
    · obtain ⟨rfl, rfl⟩ := h77
      have htry : tryFromSignature 77 77 = some ByteOrder.bigEndian := rfl
      by_cases h42 : 256 * v0 + v1 = 42
      · simp [decoderNew, headerValid, htry, versionFromU16, wordVal, h42]
      · by_cases h43 : 256 * v0 + v1 = 43
        · rcases rest with _ | ⟨o0, _ | ⟨o1, _ | ⟨p0, _ | ⟨p1, r2⟩⟩⟩⟩ <;>
            [skip; skip; skip; skip;
             (by_cases h8 : 256 * o0 + o1 = 8 <;> by_cases h0 : 256 * p0 + p1 = 0)] <;>
            simp [decoderNew, headerValid, htry, versionFromU16, wordVal, h42, h43, *]
        · simp [decoderNew, headerValid, htry, versionFromU16, wordVal, h42, h43]
    · by_cases h73 : b0 = 73 ∧ b1 = 73
      · obtain ⟨rfl, rfl⟩ := h73
        have htry : tryFromSignature 73 73 = some ByteOrder.littleEndian := rfl
        have h77x : ¬ ((73 : Nat) = 77) := by decide
        by_cases h42 : 256 * v1 + v0 = 42
        · simp [decoderNew, headerValid, htry, versionFromU16, wordVal, h42, h77x]
        · by_cases h43 : 256 * v1 + v0 = 43
          · rcases rest with _ | ⟨o0, _ | ⟨o1, _ | ⟨p0, _ | ⟨p1, r2⟩⟩⟩⟩ <;>
              [skip; skip; skip; skip;
               (by_cases h8 : 256 * o1 + o0 = 8 <;> by_cases h0 : 256 * p1 + p0 = 0)] <;>
              simp [decoderNew, headerValid, htry, versionFromU16, wordVal, h42, h43, h77x, *]
          · simp [decoderNew, headerValid, htry, versionFromU16, wordVal, h42, h43, h77x]
      · have htry : tryFromSignature b0 b1 = none := by
          simp only [tryFromSignature, if_neg h77, if_neg h73]
        simp [decoderNew, headerValid, htry, h77, h73]

/-- C7: the directory walk terminates exactly when the offset word read at
the current next-offset location is zero (and, once terminated, keeps
returning `None`); and every yielded directory at offset `O` with `N`
entries leaves the next-offset location at `O + 2 + 12·N` for ClassicTIFF
and `O + 8 + 20·N` for BigTIFF. -/
theorem directory_walk :
    (∀ ver bo s, nextDirectory ver bo s none = Except.ok (none, none))
  ∧ (∀ ver bo s nol, readWord bo s nol (offsetWidth ver) = some 0 →
      nextDirectory ver bo s (some nol) = Except.ok (none, none))
  ∧ (∀ ver bo s nol st2, nextDirectory ver bo s (some nol) = Except.ok (none, st2) →
      readWord bo s nol (offsetWidth ver) = some 0 ∧ st2 = none)
  ∧ (∀ bo s nol dir st,
      nextDirectory Version.classic bo s (some nol) = Except.ok (some dir, st) →
      st = some (dir.offset + 2 + 12 * dir.entriesCount))
  ∧ (∀ bo s nol dir st,
      nextDirectory Version.bigTiff bo s (some nol) = Except.ok (some dir, st) →
      st = some (dir.offset + 8 + 20 * dir.entriesCount)) := by
  refine ⟨fun ver bo s => rfl, fun ver bo s nol h => by simp [nextDirectory, h],
    fun ver bo s nol st2 h => ?_, fun bo s nol dir st h => ?_,
    fun bo s nol dir st h => ?_⟩
  · cases h1 : readWord bo s nol (offsetWidth ver) with
    | none => simp [nextDirectory, h1] at h
    | some off =>
      by_cases hz : off = 0
      · subst hz
        simp only [nextDirectory, h1, if_pos rfl] at h
        refine ⟨rfl, ?_⟩
        simpa using h.symm
      · cases h2 : readWord bo s off (countWidth ver) with
        | none => simp [nextDirectory, h1, h2, hz] at h
        | some n =>
          cases h3 : readWord bo s (n * entrySize ver + (off + countWidth ver))
              (offsetWidth ver) with
          | none => simp [nextDirectory, h1, h2, h3, hz] at h
          | some nxt => simp [nextDirectory, h1, h2, h3, hz] at h
  · cases h1 : readWord bo s nol (offsetWidth Version.classic) with
    | none => simp [nextDirectory, h1] at h
    | some off =>
      by_cases hz : off = 0
      · simp [nextDirectory, h1, hz] at h
      · cases h2 : readWord bo s off (countWidth Version.classic) with
        | none => simp [nextDirectory, h1, h2, hz] at h
        | some n =>
          cases h3 : readWord bo s
              (n * entrySize Version.classic + (off + countWidth Version.classic))
              (offsetWidth Version.classic) with
          | none => simp [nextDirectory, h1, h2, h3, hz] at h
          | some nxt =>
            simp only [nextDirectory, h1, h2, h3, if_neg hz] at h
            obtain ⟨hdir, hst⟩ := by
              simpa using h
            subst hdir
            rw [← hst]
            simp [entrySize, countWidth]
            omega
  · cases h1 : readWord bo s nol (offsetWidth Version.bigTiff) with
    | none => simp [nextDirectory, h1] at h
    | some off =>
      by_cases hz : off = 0
      · simp [nextDirectory, h1, hz] at h
      · cases h2 : readWord bo s off (countWidth Version.bigTiff) with
        | none => simp [nextDirectory, h1, h2, hz] at h
        | some n =>
          cases h3 : readWord bo s
              (n * entrySize Version.bigTiff + (off + countWidth Version.bigTiff))
              (offsetWidth Version.bigTiff) with
          | none => simp [nextDirectory, h1, h2, h3, hz] at h
          | some nxt =>
            simp only [nextDirectory, h1, h2, h3, if_neg hz] at h
            obtain ⟨hdir, hst⟩ := by
              simpa using h
            subst hdir
            rw [← hst]
            simp [entrySize, countWidth]
            omega

/-- Witness for `directory_walk` on concrete streams: a zero offset word
terminates cleanly, and a classic directory at offset 8 with one entry
leaves the next-offset location at `8 + 2 + 12·1 = 22`. -/
theorem directory_walk_witness :
    nextDirectory Version.classic ByteOrder.littleEndian [0, 0, 0, 0] (some 0) =
        Except.ok (none, none)
    ∧ (some 22 : Option Nat) = some (8 + 2 + 12 * 1) :=
  ⟨directory_walk.2.1 Version.classic ByteOrder.littleEndian [0, 0, 0, 0] 0 (by rfl),
   directory_walk.2.2.2.1 ByteOrder.littleEndian
     [73, 73, 42, 0, 8, 0, 0, 0, 1, 0, 0, 0, 0, 0, 0, 0, 0, 0, 0, 0, 0, 0, 0, 0, 0, 0]
     4 ⟨8, 0, 1⟩ (some 22) (by rfl)⟩

/-- C6: a yielded entry whose data fits the inline budget reports as its
offset the position immediately after the `count` field inside the entry
slot (never dereferenced); otherwise the offset is the word read there. -/
theorem entry_inline_offset (ver : Version) (bo : ByteOrder) (s : List Nat)
    (ec eo : Nat) (e : EntryModel) (ec2 eo2 : Nat)
    (h : nextEntry ver bo s ec eo = Except.ok (some (e, ec2, eo2))) :
    (DType.size e.dtype * e.count ≤ inlineBudget ver →
      e.offset = eo + 4 + offsetWidth ver)
    ∧ (inlineBudget ver < DType.size e.dtype * e.count →
      readWord bo s (eo + 4 + offsetWidth ver) (offsetWidth ver) = some e.offset) := by
  by_cases hec : ec = 0
  · simp [nextEntry, hec] at h
  cases h1 : readWord bo s eo 2 with
  | none => simp [nextEntry, hec, h1] at h
  | some tagv =>
    cases h2 : readWord bo s (eo + 2) 2 with
    | none => simp [nextEntry, hec, h1, h2] at h
    | some dtv =>
      cases h3 : dtypeFromU16 dtv with
      | none => simp [nextEntry, hec, h1, h2, h3] at h
      | some dt =>
        cases h4 : readWord bo s (eo + 4) (offsetWidth ver) with
        | none => simp [nextEntry, hec, h1, h2, h3, h4] at h
        | some count =>
          by_cases hinl : DType.size dt * count ≤ inlineBudget ver
          · simp only [nextEntry, hec, h1, h2, h3, h4, if_neg hec, if_pos hinl] at h
            obtain ⟨he, _, _⟩ := by
              simpa using h
            subst he
            exact ⟨fun _ => rfl, fun hgt => absurd hinl (by simpa using Nat.not_le.mpr hgt)⟩
          · cases h5 : readWord bo s (eo + 4 + offsetWidth ver) (offsetWidth ver) with
            | none => simp [nextEntry, hec, h1, h2, h3, h4, hinl, h5] at h
            | some off =>
              simp only [nextEntry, hec, h1, h2, h3, h4, if_neg hec, if_neg hinl, h5] at h
              obtain ⟨he, _, _⟩ := by
                simpa using h
              subst he
              refine ⟨fun hle => absurd hle hinl, fun _ => rfl⟩

/-- Witness for `entry_inline_offset`: a classic Short entry with count 1
(data size 2 ≤ 4) reports the inline position 8; a classic Rational entry
with count 1 (data size 8 > 4) reports the word 99 read at position 8. -/
theorem entry_inline_offset_witness :
    ((⟨1, DType.short, 1, 8⟩ : EntryModel).offset = 0 + 4 + offsetWidth Version.classic)
    ∧ readWord ByteOrder.littleEndian [1, 0, 5, 0, 1, 0, 0, 0, 99, 0, 0, 0]
        (0 + 4 + offsetWidth Version.classic) (offsetWidth Version.classic) =
        some (⟨1, DType.rational, 1, 99⟩ : EntryModel).offset :=
  ⟨(entry_inline_offset Version.classic ByteOrder.littleEndian
      [1, 0, 3, 0, 1, 0, 0, 0, 0, 0, 0, 0] 1 0 ⟨1, DType.short, 1, 8⟩ 0 12
      (by rfl)).1 (by decide),
   (entry_inline_offset Version.classic ByteOrder.littleEndian
      [1, 0, 5, 0, 1, 0, 0, 0, 99, 0, 0, 0] 1 0 ⟨1, DType.rational, 1, 99⟩ 0 12
      (by rfl)).2 (by decide)⟩

/-! ## Theorems about the metadata builder -/

set_option maxHeartbeats 1000000

/-- C4: `build` succeeds exactly under the conditions enumerated by the
claim: required tags present, a fully strip- or tile-shaped layout, no
zero dimension or chunk measure, offset and byte-count tables of equal
length and at least `expected_chunks_count` entries, per-sample lists
matching `samples_per_pixel`, and X/Y resolution both present or both
absent. -/
theorem build_ok_characterisation (b : MetadataBuilder) :
    (build b).isSome = buildSpecOk b := by
  obtain ⟨iw, il, itp, rps, so, sbc, tw, tl, tof, tbc, spp, bps, sf, xr, yr⟩ := b
  rcases iw with _ | w
  · simp [build, buildSpecOk]
  rcases il with _ | h
  · simp [build, buildSpecOk]
  rcases itp with _ | interp
  · simp [build, buildSpecOk]
  rcases rps with _ | rps <;> rcases so with _ | so <;> rcases sbc with _ | sbc <;>
    rcases tw with _ | tw <;> rcases tl with _ | tl <;> rcases tof with _ | tof <;>
    rcases tbc with _ | tbc <;>
    rcases xr with _ | xr <;> rcases yr with _ | yr <;>
    simp [build, buildTail, buildSpecOk, stripShaped, tileShaped, specOffsets,
      specByteCounts, specChunkMeasuresPos, specExpected, apply_ite Option.isSome] <;>
    (try rw [Bool.eq_iff_iff]) <;> (try simp [Layout.expectedChunksCount, Nat.not_lt]) <;>
    (try tauto)

/-- Facts available after a successful `build`: positive dimensions and
chunk measures, the chunk table is the zip of the offsets and byte-counts
tables, and it has at least the expected number of chunks. -/
theorem build_inversion (b : MetadataBuilder) (m : Metadata) (hb : build b = some m) :
    0 < m.dimensions.1 ∧ 0 < m.dimensions.2 ∧
    0 < (Metadata.chunkSize m).1 ∧ 0 < (Metadata.chunkSize m).2 ∧
    m.chunks = (specOffsets b).zip (specByteCounts b) ∧
    Layout.expectedChunksCount m.layout m.dimensions.1 m.dimensions.2 ≤
      m.chunks.length := by
  obtain ⟨iw, il, itp, rps, so, sbc, tw, tl, tof, tbc, spp, bps, sf, xr, yr⟩ := b
  rcases iw with _ | w
  · simp [build] at hb
  rcases il with _ | h
  · simp [build] at hb
  rcases itp with _ | interp
  · simp [build] at hb
  rcases rps with _ | rps <;> rcases so with _ | so <;> rcases sbc with _ | sbc <;>
    rcases tw with _ | tw <;> rcases tl with _ | tl <;> rcases tof with _ | tof <;>
    rcases tbc with _ | tbc <;>
    rcases xr with _ | xr <;> rcases yr with _ | yr <;>
    simp only [build, buildTail] at hb <;>
    split_ifs at hb <;>
    simp_all [specOffsets, specByteCounts, stripShaped, tileShaped,
      Layout.expectedChunksCount, List.length_zip] <;>
    subst hb <;>
    simp_all [Metadata.chunkSize, Layout.expectedChunksCount, List.length_zip] <;>
    omega

/-- An index below `divCeil a b` multiplied back by `b` stays below `a`. -/
theorem lt_of_lt_divCeil (i a b : Nat) (hb : 0 < b) (hi : i < divCeil a b) : i * b < a := by
  have h2 : (i + 1) * b ≤ a + b - 1 := (Nat.le_div_iff_mul_le hb).mp hi
  have h3 : (i + 1) * b = i * b + b := by ring
  omega

/-- `divCeil w w = 1` for positive `w`. -/
theorem divCeil_self (w : Nat) (hw : 0 < w) : divCeil w w = 1 := by
  rw [divCeil]
  exact Nat.div_eq_of_lt_le (by omega) (by omega)

/-- `divCeil` of positives is positive. -/
theorem divCeil_pos (a b : Nat) (ha : 0 < a) (hb : 0 < b) : 0 < divCeil a b := by
  rw [divCeil]
  have h1 : 1 * b ≤ a + b - 1 := by omega
  have h2 := (Nat.le_div_iff_mul_le hb).mpr h1
  omega

/-- `divCeil a b ≤ a` for a positive divisor. -/
theorem divCeil_le_self (a b : Nat) (hb : 0 < b) : divCeil a b ≤ a := by
  rw [divCeil, Nat.div_le_iff_le_mul_add_pred hb]
  have h1 := Nat.le_mul_of_pos_left a hb
  omega

/-- C5 counterexample: the claimed plain-subtraction size formula fails at
an index beyond `expected_chunks_count` (which `build` admits): on the
successfully built 1×1 strip image with three chunk-table entries, the
chunk at index 2 has `origin.y = 2` and the code computes size `(1, 1)`
(the `u32` subtraction `1 - 2` wraps in release builds and panics in
debug builds), while `min(chunk_length, image_length - origin.y)` with
ordinary subtraction is `min 1 (1 - 2) = 0 ≠ 1`. -/
theorem chunks_size_formula_underflow :
    build ⟨some 1, some 1, some 2, some 1, some [0, 0, 0], some [0, 0, 0], none, none,
        none, none, none, none, none, none, none⟩ =
      some ⟨(1, 1), 2, Layout.strips 1, [(0, 0), (0, 0), (0, 0)], [(1, 1)], none⟩ ∧
    2 < (Metadata.mk (1, 1) 2 (Layout.strips 1) [(0, 0), (0, 0), (0, 0)] [(1, 1)]
        none).chunks.length ∧
    (Metadata.chunksList
        ⟨(1, 1), 2, Layout.strips 1, [(0, 0), (0, 0), (0, 0)], [(1, 1)], none⟩).getD 2
        ⟨(0, 0), (0, 0), 0, 0⟩ = ⟨(0, 2), (1, 1), 0, 0⟩ ∧
    min 1 (1 - 2 / divCeil 1 1 * 1) = 0 ∧
    (1 : Nat) ≠ 0 := by decide

/-- C5 (amended): the chunks iterator yields one chunk per entry of the
offsets/byte-counts table, in storage order; the `i`-th chunk carries the
`i`-th table entry and the origin/size formulas of `build_nth_chunk`
computed in `u32` arithmetic (products and the subtractions
`image_width - origin.x`, `image_length - origin.y` wrap modulo `2^32`);
for every `i` below `expected_chunks_count` the `u32` operations coincide
with ordinary arithmetic and the plain formulas of the claim hold. -/
theorem chunks_nth (b : MetadataBuilder) (m : Metadata) (hb : build b = some m)
    (i : Nat) (hi : i < m.chunks.length)
    (hw32 : m.dimensions.1 < 4294967296) (hh32 : m.dimensions.2 < 4294967296) :
    (Metadata.chunksList m).length = m.chunks.length ∧
    m.chunks = (specOffsets b).zip (specByteCounts b) ∧
    (Metadata.chunksList m).getD i ⟨(0, 0), (0, 0), 0, 0⟩ =
      ⟨(wmul32 (i % divCeil m.dimensions.1 (Metadata.chunkSize m).1)
          (Metadata.chunkSize m).1,
        wmul32 (i / divCeil m.dimensions.1 (Metadata.chunkSize m).1 % 4294967296)
          (Metadata.chunkSize m).2),
       (min (Metadata.chunkSize m).1
          (wsub32 m.dimensions.1
            (wmul32 (i % divCeil m.dimensions.1 (Metadata.chunkSize m).1)
              (Metadata.chunkSize m).1)),
        min (Metadata.chunkSize m).2
          (wsub32 m.dimensions.2
            (wmul32 (i / divCeil m.dimensions.1 (Metadata.chunkSize m).1 % 4294967296)
              (Metadata.chunkSize m).2))),
       (m.chunks.getD i (0, 0)).1, (m.chunks.getD i (0, 0)).2⟩ ∧
    (i < Layout.expectedChunksCount m.layout m.dimensions.1 m.dimensions.2 →
      (Metadata.chunksList m).getD i ⟨(0, 0), (0, 0), 0, 0⟩ =
        ⟨((i % divCeil m.dimensions.1 (Metadata.chunkSize m).1) * (Metadata.chunkSize m).1,
          (i / divCeil m.dimensions.1 (Metadata.chunkSize m).1) * (Metadata.chunkSize m).2),
         (min (Metadata.chunkSize m).1
            (m.dimensions.1 -
              (i % divCeil m.dimensions.1 (Metadata.chunkSize m).1) *
                (Metadata.chunkSize m).1),
          min (Metadata.chunkSize m).2
            (m.dimensions.2 -
              (i / divCeil m.dimensions.1 (Metadata.chunkSize m).1) *
                (Metadata.chunkSize m).2)),
         (m.chunks.getD i (0, 0)).1, (m.chunks.getD i (0, 0)).2⟩) := by
  obtain ⟨hw, hh, hcw, hcl, hchunks, _⟩ := build_inversion b m hb
  have hmain : (Metadata.chunksList m).getD i ⟨(0, 0), (0, 0), 0, 0⟩ =
      ⟨(wmul32 (i % divCeil m.dimensions.1 (Metadata.chunkSize m).1)
          (Metadata.chunkSize m).1,
        wmul32 (i / divCeil m.dimensions.1 (Metadata.chunkSize m).1 % 4294967296)
          (Metadata.chunkSize m).2),
       (min (Metadata.chunkSize m).1
          (wsub32 m.dimensions.1
            (wmul32 (i % divCeil m.dimensions.1 (Metadata.chunkSize m).1)
              (Metadata.chunkSize m).1)),
        min (Metadata.chunkSize m).2
          (wsub32 m.dimensions.2
            (wmul32 (i / divCeil m.dimensions.1 (Metadata.chunkSize m).1 % 4294967296)
              (Metadata.chunkSize m).2))),
       (m.chunks.getD i (0, 0)).1, (m.chunks.getD i (0, 0)).2⟩ := by
    have hsome : m.chunks.get? i = some (m.chunks.getD i (0, 0)) := by
      rw [List.getD_eq_getD_get?]
      cases hx : m.chunks.get? i with
      | none => exact absurd (List.get?_eq_none.mp hx) (by omega)
      | some v => rfl
    rw [List.getD_eq_getD_get?, Metadata.chunksList, List.get?_map, List.get?_enum, hsome]
    simp [buildNthChunk]
  refine ⟨by simp [Metadata.chunksList], hchunks, hmain, fun hilt => ?_⟩
  have hexp : Layout.expectedChunksCount m.layout m.dimensions.1 m.dimensions.2 =
      divCeil m.dimensions.2 (Metadata.chunkSize m).2 *
        divCeil m.dimensions.1 (Metadata.chunkSize m).1 := by
    cases hl : m.layout with
    | strips len =>
      simp [Layout.expectedChunksCount, Metadata.chunkSize, hl, divCeil_self _ hw]
    | tiles tw2 tl2 =>
      simp [Layout.expectedChunksCount, Metadata.chunkSize, hl]
  rw [hexp] at hilt
  have hstride : 0 < divCeil m.dimensions.1 (Metadata.chunkSize m).1 :=
    divCeil_pos _ _ hw hcw
  have hmodlt : i % divCeil m.dimensions.1 (Metadata.chunkSize m).1 <
      divCeil m.dimensions.1 (Metadata.chunkSize m).1 := Nat.mod_lt _ hstride
  have hdivlt : i / divCeil m.dimensions.1 (Metadata.chunkSize m).1 <
      divCeil m.dimensions.2 (Metadata.chunkSize m).2 :=
    (Nat.div_lt_iff_lt_mul hstride).mpr hilt
  have hox := lt_of_lt_divCeil _ _ _ hcw hmodlt
  have hoy := lt_of_lt_divCeil _ _ _ hcl hdivlt
  have hcast : i / divCeil m.dimensions.1 (Metadata.chunkSize m).1 % 4294967296 =
      i / divCeil m.dimensions.1 (Metadata.chunkSize m).1 :=
    Nat.mod_eq_of_lt (lt_of_lt_of_le hdivlt
      (le_trans (divCeil_le_self _ _ hcl) (Nat.le_of_lt hh32)))
  have hmx : wmul32 (i % divCeil m.dimensions.1 (Metadata.chunkSize m).1)
      (Metadata.chunkSize m).1 =
      (i % divCeil m.dimensions.1 (Metadata.chunkSize m).1) * (Metadata.chunkSize m).1 := by
    rw [wmul32]
    exact Nat.mod_eq_of_lt (lt_trans hox hw32)
  have hmy : wmul32 (i / divCeil m.dimensions.1 (Metadata.chunkSize m).1)
      (Metadata.chunkSize m).2 =
      (i / divCeil m.dimensions.1 (Metadata.chunkSize m).1) * (Metadata.chunkSize m).2 := by
    rw [wmul32]
    exact Nat.mod_eq_of_lt (lt_trans hoy hh32)
  have hsx : wsub32 m.dimensions.1
      ((i % divCeil m.dimensions.1 (Metadata.chunkSize m).1) * (Metadata.chunkSize m).1) =
      m.dimensions.1 -
        (i % divCeil m.dimensions.1 (Metadata.chunkSize m).1) * (Metadata.chunkSize m).1 := by
    rw [wsub32, if_pos (Nat.le_of_lt hox)]
  have hsy : wsub32 m.dimensions.2
      ((i / divCeil m.dimensions.1 (Metadata.chunkSize m).1) * (Metadata.chunkSize m).2) =
      m.dimensions.2 -
        (i / divCeil m.dimensions.1 (Metadata.chunkSize m).1) * (Metadata.chunkSize m).2 := by
    rw [wsub32, if_pos (Nat.le_of_lt hoy)]
  rw [hmain, hcast, hmx, hmy, hsx, hsy]

/-- Witness for `chunks_nth` on a successfully built 1×1 strip image with
two chunk-table entries, at index 0 (inside the expected range). -/
theorem chunks_nth_witness :
    (Metadata.chunksList ⟨(1, 1), 2, Layout.strips 1, [(0, 0), (0, 0)], [(1, 1)],
        none⟩).length = 2 ∧
    (Metadata.chunksList ⟨(1, 1), 2, Layout.strips 1, [(0, 0), (0, 0)], [(1, 1)],
        none⟩).getD 0 ⟨(0, 0), (0, 0), 0, 0⟩ = ⟨(0, 0), (1, 1), 0, 0⟩ := by
  have hfull := chunks_nth
    ⟨some 1, some 1, some 2, some 1, some [0, 0], some [0, 0], none, none, none, none,
      none, none, none, none, none⟩
    ⟨(1, 1), 2, Layout.strips 1, [(0, 0), (0, 0)], [(1, 1)], none⟩
    (by decide) 0 (by decide) (by decide) (by decide)
  exact ⟨hfull.1, hfull.2.2.2 (by decide)⟩

/-- C10: for every successfully built metadata and every index below
`expected_chunks_count`, the chunk origin stays strictly inside the image
(so the `u32` subtractions of `build_nth_chunk` cannot underflow and both
size components are at least 1); and the bound does not extend to larger
indices, which exist because `build` accepts more offsets than expected. -/
theorem chunk_safety :
    (∀ b m i loc, build b = some m →
      i < Layout.expectedChunksCount m.layout m.dimensions.1 m.dimensions.2 →
      (buildNthChunk m.dimensions (Metadata.chunkSize m) i loc).origin.1 < m.dimensions.1 ∧
      (buildNthChunk m.dimensions (Metadata.chunkSize m) i loc).origin.2 < m.dimensions.2 ∧
      1 ≤ (buildNthChunk m.dimensions (Metadata.chunkSize m) i loc).size.1 ∧
      1 ≤ (buildNthChunk m.dimensions (Metadata.chunkSize m) i loc).size.2)
  ∧ (∃ b m, build b = some m ∧
      Layout.expectedChunksCount m.layout m.dimensions.1 m.dimensions.2 <
        m.chunks.length ∧
      ¬ (buildNthChunk m.dimensions (Metadata.chunkSize m) 1 (0, 0)).origin.2 <
        m.dimensions.2) := by
  constructor
  · intro b m i loc hb hi
    obtain ⟨hw, hh, hcw, hcl, _, _⟩ := build_inversion b m hb
    have hexp : Layout.expectedChunksCount m.layout m.dimensions.1 m.dimensions.2 =
        divCeil m.dimensions.2 (Metadata.chunkSize m).2 *
          divCeil m.dimensions.1 (Metadata.chunkSize m).1 := by
      cases hl : m.layout with
      | strips len =>
        simp [Layout.expectedChunksCount, Metadata.chunkSize, hl, divCeil_self _ hw]
      | tiles tw2 tl2 =>
        simp [Layout.expectedChunksCount, Metadata.chunkSize, hl]
    rw [hexp] at hi
    have hstride : 0 < divCeil m.dimensions.1 (Metadata.chunkSize m).1 :=
      divCeil_pos _ _ hw hcw
    have hmodlt : i % divCeil m.dimensions.1 (Metadata.chunkSize m).1 <
        divCeil m.dimensions.1 (Metadata.chunkSize m).1 := Nat.mod_lt _ hstride
    have hdivlt : i / divCeil m.dimensions.1 (Metadata.chunkSize m).1 <
        divCeil m.dimensions.2 (Metadata.chunkSize m).2 :=
      (Nat.div_lt_iff_lt_mul hstride).mpr hi
    have hox := lt_of_lt_divCeil _ _ _ hcw hmodlt
    have hoy := lt_of_lt_divCeil _ _ _ hcl hdivlt
    have hoxw : wmul32 (i % divCeil m.dimensions.1 (Metadata.chunkSize m).1)
        (Metadata.chunkSize m).1 < m.dimensions.1 := by
      rw [wmul32]
      exact lt_of_le_of_lt (Nat.mod_le _ _) hox
    have hoyw : wmul32 (i / divCeil m.dimensions.1 (Metadata.chunkSize m).1 % 4294967296)
        (Metadata.chunkSize m).2 < m.dimensions.2 := by
      rw [wmul32]
      refine lt_of_le_of_lt (Nat.mod_le _ _) (lt_of_le_of_lt ?_ hoy)
      exact Nat.mul_le_mul_right _ (Nat.mod_le _ _)
    refine ⟨?_, ?_, ?_, ?_⟩ <;> simp only [buildNthChunk]
    · exact hoxw
    · exact hoyw
    · rw [wsub32, if_pos (Nat.le_of_lt hoxw)]
      omega
    · rw [wsub32, if_pos (Nat.le_of_lt hoyw)]
      omega
  · refine ⟨⟨some 1, some 1, some 2, some 1, some [(0 : Nat), 0], some [(0 : Nat), 0],
      none, none, none, none, none, none, none, none, none⟩,
      ⟨(1, 1), 2, Layout.strips 1, [(0, 0), (0, 0)], [(1, 1)], none⟩, ?_, ?_, ?_⟩ <;> decide

/-- Witness for the first part of `chunk_safety` on the 1×1 strip image at
index 0. -/
theorem chunk_safety_witness :
    (buildNthChunk (1, 1) (1, 1) 0 (5, 7)).origin.1 < 1 ∧
    (buildNthChunk (1, 1) (1, 1) 0 (5, 7)).origin.2 < 1 ∧
    1 ≤ (buildNthChunk (1, 1) (1, 1) 0 (5, 7)).size.1 ∧
    1 ≤ (buildNthChunk (1, 1) (1, 1) 0 (5, 7)).size.2 :=
  chunk_safety.1
    ⟨some 1, some 1, some 2, some 1, some [0, 0], some [0, 0], none, none, none, none,
      none, none, none, none, none⟩
    ⟨(1, 1), 2, Layout.strips 1, [(0, 0), (0, 0)], [(1, 1)], none⟩
    0 (5, 7) (by decide) (by decide)

end Aira
